import Mathlib

/-!
Shallow embedding of the determinant / excitation-generation core of the
`arches` repository (file containing `compute_phase_single_excitation`,
`apply_single_excitation`, `get_constrained_singles`, `get_ss_doubles`, ...).

A `spin_det_t` is a fixed-capacity occupation bit vector over orbitals
`[0, N_mos)`; we embed the bit pattern as the finite set of set bit
positions.  A `det_t` is an (alpha, beta) pair of spin determinants.
The underlying bitset class (`determinant.h`) is not among the provided
source files, so its primitive operations (bit set/clear, range set,
complement, AND, XOR, popcount, the three constructors, and
`to_constraint`) are modelled from the spec; the generation, phase and
excitation-application functions are translated directly from the source.
-/

/-- Modelled from the spec: a spin determinant is a bit vector of capacity
`N_mos`; we represent the bit pattern by the set of positions of set bits
(`determinant.h` is absent from the sources). -/
structure spin_det_t where
  N_mos : ℕ
  occ : Finset ℕ
deriving DecidableEq

/-- Modelled from the spec: empty constructor `spin_det_t(N_mos)` — all bits
clear. -/
def sdet_empty (n : ℕ) : spin_det_t := ⟨n, ∅⟩

/-- Modelled from the spec: fill constructor `spin_det_t(N_mos, max_orb, 1)` —
"bits set for orbitals `< max_orb`". -/
def sdet_fill (n : ℕ) (max_orb : ℕ) : spin_det_t := ⟨n, Finset.range max_orb⟩

/-- Modelled from the spec: orbital-list constructor
`spin_det_t(N_mos, N_filled, orbs)` — "bits set at the allowed ... orbital
indices". -/
def sdet_from_orbs (n : ℕ) (orbs : List ℕ) : spin_det_t := ⟨n, orbs.toFinset⟩

/-- Modelled from the spec: single-bit mutator `set(i, val)`; no bounds
check ("fixed-width bitset without bounds checking"). -/
def spin_det_t.set (s : spin_det_t) (i : ℕ) (val : Bool) : spin_det_t :=
  if val then ⟨s.N_mos, insert i s.occ⟩ else ⟨s.N_mos, s.occ.erase i⟩

/-- Modelled from the spec: range mutator `set(lo, hi, val)`.  The phase
routine builds its mask with `hpmask.set(i + 1, j, 1)` and the spec states
the counted range is the open-closed interval `(i, j]`, so the range is
endpoint-inclusive `[lo, hi]`. -/
def spin_det_t.setRange (s : spin_det_t) (lo hi : ℕ) (val : Bool) : spin_det_t :=
  if val then ⟨s.N_mos, s.occ ∪ Finset.Icc lo hi⟩ else ⟨s.N_mos, s.occ \ Finset.Icc lo hi⟩

/-- Modelled from the spec: `operator[](i)` / per-bit get. -/
def spin_det_t.test (s : spin_det_t) (i : ℕ) : Bool := i ∈ s.occ

/-- Modelled from the spec: `operator~()`, masked to exactly `N_mos` bits
("implementations must mask to exactly `n_mos` bits after any complement"). -/
def spin_det_t.compl (s : spin_det_t) : spin_det_t :=
  ⟨s.N_mos, Finset.range s.N_mos \ s.occ⟩

/-- Modelled from the spec: `operator&`, bitwise AND. -/
def spin_det_t.land (s t : spin_det_t) : spin_det_t := ⟨s.N_mos, s.occ ∩ t.occ⟩

/-- Modelled from the spec: `operator^`, bitwise XOR (symmetric difference of
the set-bit position sets). -/
def spin_det_t.lxor (s t : spin_det_t) : spin_det_t :=
  ⟨s.N_mos, (s.occ \ t.occ) ∪ (t.occ \ s.occ)⟩

/-- Modelled from the spec: `count()`, population count. -/
def spin_det_t.count (s : spin_det_t) : ℕ := s.occ.card

/-- A spin determinant whose set bits all lie in the valid orbital index
range `[0, N_mos)` (spec data-model invariant). -/
def valid_spin_det (s : spin_det_t) : Prop := s.occ ⊆ Finset.range s.N_mos

instance (s : spin_det_t) : Decidable (valid_spin_det s) := by
  unfold valid_spin_det; infer_instance

/-- `det_t`: an (alpha, beta) pair of spin determinants. -/
structure det_t where
  alpha : spin_det_t
  beta : spin_det_t
deriving DecidableEq

/-- `operator[](spin)`: channel access, `0 ↦ alpha`, otherwise beta. -/
def det_t.sd (d : det_t) (spin : ℕ) : spin_det_t :=
  if spin = 0 then d.alpha else d.beta

/-- `s2[spin].set(i, val)`: write one bit of the selected channel. -/
def det_t.setOrb (d : det_t) (spin : ℕ) (i : ℕ) (val : Bool) : det_t :=
  if spin = 0 then ⟨d.alpha.set i val, d.beta⟩ else ⟨d.alpha, d.beta.set i val⟩

/-- Modelled from the spec: `to_constraint` converts a bit mask to the
ordered sequence of set orbital indices in ascending bit-index order
(a scan of the bit positions `0, ..., N_mos - 1`). -/
def to_constraint (s : spin_det_t) : List ℕ :=
  (List.range s.N_mos).filter (fun i => i ∈ s.occ)

/-- `compute_phase_single_excitation(spin_det_t d, idx_t h, idx_t p)`:
build `hpmask` covering `(min h p, max h p]`, AND with `d`, take parity. -/
def compute_phase_single_excitation (d : spin_det_t) (h p : ℕ) : ℤ :=
  let i := min h p
  let j := max h p
  let hpmask := (sdet_empty d.N_mos).setRange (i + 1) j true
  if (hpmask.land d).count % 2 = 1 then -1 else 1

/-- `compute_phase_double_excitation(spin_det_t d, h1, h2, p1, p2)`
(same-spin case): product of two single-excitation phases, with a sign flip
when `h2 < p1` and another when `p2 < h1`. -/
def compute_phase_double_excitation (d : spin_det_t) (h1 h2 p1 p2 : ℕ) : ℤ :=
  let phase := compute_phase_single_excitation d h1 p1 *
    compute_phase_single_excitation d h2 p2
  let phase := if h2 < p1 then phase * (-1) else phase
  if p2 < h1 then phase * (-1) else phase

/-- `exc_det(det_t&, det_t&)`: per-channel XOR of two determinants. -/
def exc_det (a b : det_t) : det_t :=
  ⟨a.alpha.lxor b.alpha, a.beta.lxor b.beta⟩

/-- `apply_single_excitation(spin_det_t s, idx_t h, idx_t p)`:
`s2.set(h, 0); s2.set(p, 1)`. -/
def apply_single_excitation (s : spin_det_t) (h p : ℕ) : spin_det_t :=
  (s.set h false).set p true

/-- `apply_single_excitation(det_t s, int spin, idx_t h, idx_t p)`:
`s2[spin].set(h, 0); s2[spin].set(p, 1)`. -/
def apply_single_excitation_det (d : det_t) (spin : ℕ) (h p : ℕ) : det_t :=
  (d.setOrb spin h false).setOrb spin p true

/-- `apply_double_excitation(spin_det_t s, h1, h2, p1, p2)`. -/
def apply_double_excitation (s : spin_det_t) (h1 h2 p1 p2 : ℕ) : spin_det_t :=
  (((s.set h1 false).set h2 false).set p1 true).set p2 true

/-- `apply_double_excitation(det_t s, int spin_1, int spin_2, h1, h2, p1, p2)`. -/
def apply_double_excitation_det (d : det_t) (spin1 spin2 : ℕ) (h1 h2 p1 p2 : ℕ) : det_t :=
  (((d.setOrb spin1 h1 false).setOrb spin2 h2 false).setOrb spin1 p1 true).setOrb spin2 p2 true

/-- `spin_constraint_t`: ordered list of orbital indices. -/
def spin_constraint_t := List ℕ

/-- `exc_constraint_t`: (hole-allow-list, particle-allow-list) pair. -/
def exc_constraint_t := List ℕ × List ℕ

/-- `get_singles_by_exc_mask(det_t d, int spin, h, p)`: outer loop over the
hole list, inner loop over the particle list. -/
def get_singles_by_exc_mask (d : det_t) (spin : ℕ) (h p : List ℕ) : List det_t :=
  h.flatMap (fun i => p.map (fun j => apply_single_excitation_det d spin i j))

/-- `get_spin_singles_by_exc_mask(spin_det_t d, h, p)`. -/
def get_spin_singles_by_exc_mask (d : spin_det_t) (h p : List ℕ) : List spin_det_t :=
  h.flatMap (fun i => p.map (fun j => apply_single_excitation d i j))

/-- All index pairs `(l[i], l[j])` with `i < j`, outer index ascending,
inner index ascending: the traversal order of the nested
`for (h1 ...) for (h2 = h1+1 ...)` loops of `get_ss_doubles_by_exc_mask`.
(The C++ outer bound is `size() - 1`; for a nonempty list the iteration
spaces coincide, and for an empty list no body iteration pushes a result
either way.) -/
def orderedPairs : List ℕ → List (ℕ × ℕ)
  | [] => []
  | x :: xs => (xs.map (fun y => (x, y))) ++ orderedPairs xs

/-- `get_ss_doubles_by_exc_mask(det_t d, int spin, h, p)`: all `h1 < h2`
hole pairs (lexicographic), then all `p1 < p2` particle pairs. -/
def get_ss_doubles_by_exc_mask (d : det_t) (spin : ℕ) (h p : List ℕ) : List det_t :=
  (orderedPairs h).flatMap (fun hh =>
    (orderedPairs p).map (fun pp =>
      apply_double_excitation_det d spin spin hh.1 hh.2 pp.1 pp.2))

/-- The hole bit-set resolved by `get_constrained_singles` (and
`get_constrained_os_doubles`): `(~d[spin] & hole_mask) & max_orb_mask`
as written in the source. -/
def resolver_holes_singles (s hole_mask max_orb_mask : spin_det_t) : spin_det_t :=
  (s.compl.land hole_mask).land max_orb_mask

/-- The particle bit-set resolved by `get_constrained_singles` (and
`get_constrained_os_doubles`): `(d[spin] & part_mask) & max_orb_mask`
as written in the source. -/
def resolver_parts_singles (s part_mask max_orb_mask : spin_det_t) : spin_det_t :=
  (s.land part_mask).land max_orb_mask

/-- The hole bit-set resolved by `get_constrained_ss_doubles`:
`(d[spin] & hole_mask) & max_orb_mask`. -/
def resolver_holes_ss (s hole_mask max_orb_mask : spin_det_t) : spin_det_t :=
  (s.land hole_mask).land max_orb_mask

/-- The particle bit-set resolved by `get_constrained_ss_doubles`:
`(~d[spin] & part_mask) & max_orb_mask`. -/
def resolver_parts_ss (s part_mask max_orb_mask : spin_det_t) : spin_det_t :=
  (s.compl.land part_mask).land max_orb_mask

/-- `get_constrained_singles(det_t d, exc_constraint_t constraint, idx_t
max_orb)`, translated as written (holes from `~d[spin] & hole_mask`,
particles from `d[spin] & part_mask`). -/
def get_constrained_singles (d : det_t) (constraint : List ℕ × List ℕ)
    (max_orb : ℕ) : List det_t :=
  let hole_mask := sdet_from_orbs d.alpha.N_mos constraint.1
  let part_mask := sdet_from_orbs d.alpha.N_mos constraint.2
  let max_orb_mask := sdet_fill d.alpha.N_mos max_orb
  let alpha_holes := to_constraint (resolver_holes_singles d.alpha hole_mask max_orb_mask)
  let alpha_parts := to_constraint (resolver_parts_singles d.alpha part_mask max_orb_mask)
  let beta_holes := to_constraint (resolver_holes_singles d.beta hole_mask max_orb_mask)
  let beta_parts := to_constraint (resolver_parts_singles d.beta part_mask max_orb_mask)
  get_singles_by_exc_mask d 0 alpha_holes alpha_parts ++
    get_singles_by_exc_mask d 1 beta_holes beta_parts

/-- `get_all_singles(det_t d)`: holes `to_constraint(d[s])`, particles
`to_constraint(~d[s])`, alpha block then beta block. -/
def get_all_singles (d : det_t) : List det_t :=
  get_singles_by_exc_mask d 0 (to_constraint d.alpha) (to_constraint d.alpha.compl) ++
    get_singles_by_exc_mask d 1 (to_constraint d.beta) (to_constraint d.beta.compl)

/-- `get_ss_doubles(det_t d)`: same-spin doubles from the unconstrained
occupied/virtual sets, alpha block then beta block. -/
def get_ss_doubles (d : det_t) : List det_t :=
  get_ss_doubles_by_exc_mask d 0 (to_constraint d.alpha) (to_constraint d.alpha.compl) ++
    get_ss_doubles_by_exc_mask d 1 (to_constraint d.beta) (to_constraint d.beta.compl)

/-- `get_constrained_ss_doubles(det_t d, exc_constraint_t constraint,
idx_t max_orb)`: holes from `(d[spin] & hole_mask) & max_orb_mask`,
particles from `(~d[spin] & part_mask) & max_orb_mask`. -/
def get_constrained_ss_doubles (d : det_t) (constraint : List ℕ × List ℕ)
    (max_orb : ℕ) : List det_t :=
  let hole_mask := sdet_from_orbs d.alpha.N_mos constraint.1
  let part_mask := sdet_from_orbs d.alpha.N_mos constraint.2
  let max_orb_mask := sdet_fill d.alpha.N_mos max_orb
  let alpha_holes := to_constraint (resolver_holes_ss d.alpha hole_mask max_orb_mask)
  let alpha_parts := to_constraint (resolver_parts_ss d.alpha part_mask max_orb_mask)
  let beta_holes := to_constraint (resolver_holes_ss d.beta hole_mask max_orb_mask)
  let beta_parts := to_constraint (resolver_parts_ss d.beta part_mask max_orb_mask)
  get_ss_doubles_by_exc_mask d 0 alpha_holes alpha_parts ++
    get_ss_doubles_by_exc_mask d 1 beta_holes beta_parts

/-- `get_os_doubles(det_t d)`: cartesian product of the per-channel single
lists, alpha outer, beta inner. -/
def get_os_doubles (d : det_t) : List det_t :=
  let alpha_singles := get_spin_singles_by_exc_mask d.alpha
    (to_constraint d.alpha) (to_constraint d.alpha.compl)
  let beta_singles := get_spin_singles_by_exc_mask d.beta
    (to_constraint d.beta) (to_constraint d.beta.compl)
  alpha_singles.flatMap (fun a => beta_singles.map (fun b => det_t.mk a b))

/-- The reference determinant of the spec's concrete scenario: `n_mos = 4`,
alpha occupied `{0, 1}`, beta empty. -/
def refDet : det_t := ⟨⟨4, {0, 1}⟩, ⟨4, (∅ : Finset ℕ)⟩⟩

/-! ### Helper lemmas -/

lemma length_flatMap_const {α β : Type _} (l : List α) (f : α → List β) (c : ℕ)
    (hf : ∀ a ∈ l, (f a).length = c) : (l.flatMap f).length = l.length * c := by
  induction l with
  | nil => simp
  | cons x xs ih =>
    have hx := hf x (List.mem_cons_self x xs)
    have ih' := ih (fun a ha => hf a (List.mem_cons_of_mem x ha))
    simp only [List.flatMap_cons, List.length_append, hx, ih', List.length_cons]
    ring

lemma orderedPairs_length (l : List ℕ) :
    (orderedPairs l).length = Nat.choose l.length 2 := by
  induction l with
  | nil => simp [orderedPairs]
  | cons x xs ih =>
    simp only [orderedPairs, List.length_append, List.length_map, ih, List.length_cons]
    rw [Nat.choose_succ_succ, Nat.choose_one_right]

lemma to_constraint_length (s : spin_det_t) (hv : valid_spin_det s) :
    (to_constraint s).length = s.count := by
  have h1 : (to_constraint s).length =
      ((Finset.range s.N_mos).filter (fun i => i ∈ s.occ)).card := rfl
  rw [h1, Finset.filter_mem_eq_inter, Finset.inter_eq_right.mpr hv]
  rfl

lemma valid_compl (s : spin_det_t) : valid_spin_det s.compl :=
  Finset.sdiff_subset

lemma compl_count (s : spin_det_t) (hv : valid_spin_det s) :
    s.compl.count = s.N_mos - s.count := by
  simp [spin_det_t.compl, spin_det_t.count, Finset.card_sdiff hv, Finset.card_range]

lemma length_singles_by_mask (d : det_t) (spin : ℕ) (h p : List ℕ) :
    (get_singles_by_exc_mask d spin h p).length = h.length * p.length := by
  unfold get_singles_by_exc_mask
  rw [length_flatMap_const _ _ p.length]
  intro a _
  simp

lemma length_ss_doubles_by_mask (d : det_t) (spin : ℕ) (h p : List ℕ) :
    (get_ss_doubles_by_exc_mask d spin h p).length =
      Nat.choose h.length 2 * Nat.choose p.length 2 := by
  unfold get_ss_doubles_by_exc_mask
  rw [length_flatMap_const _ _ (orderedPairs p).length]
  · rw [orderedPairs_length, orderedPairs_length]
  · intro a _
    simp

/-! ### Claims -/

/-- C1: the spec states that constrained single generation resolves
`holes = occupied(d) AND hole_mask AND cutoff_mask` and
`particles = complement(occupied(d)) AND particle_mask AND cutoff_mask`,
and that on `n_mos = 4`, alpha occupied `{0, 1}`, beta empty, hole-allow
`{1}`, particle-allow `{3}` exactly the single excitation `(1 → 3)` is
produced.  The source of `get_constrained_singles` swaps the two mask
orientations (`~d[spin] & hole_mask`, `d[spin] & part_mask`), so on that
input it produces no excitation at all; in particular the expected
determinant is absent. -/
theorem c1_constrained_singles_evaluation :
    get_constrained_singles refDet ([1], [3]) 4 = [] ∧
    apply_single_excitation_det refDet 0 1 3 ∉
      get_constrained_singles refDet ([1], [3]) 4 := by
  decide

/-- C2: the phase of a single excitation `(h, p)` is `-1` exactly when the
number of occupied orbitals of the pre-excitation determinant in the
open-closed range `(min h p, max h p]` is odd, and `+1` when even; on
alpha occupied `{0, 1}` with `n_mos = 4` the phase of `(0 → 2)` is `-1`
and the phase of `(1 → 3)` is `+1`. -/
theorem c2_phase_single_spec :
    (∀ (s : spin_det_t) (h p : ℕ),
      compute_phase_single_excitation s h p =
        if (Finset.Ioc (min h p) (max h p) ∩ s.occ).card % 2 = 1 then -1 else 1) ∧
    compute_phase_single_excitation refDet.alpha 0 2 = -1 ∧
    compute_phase_single_excitation refDet.alpha 1 3 = 1 := by
  refine ⟨fun s h p => ?_, by decide, by decide⟩
  simp [compute_phase_single_excitation, sdet_empty, spin_det_t.setRange,
    spin_det_t.land, spin_det_t.count, Nat.Icc_succ_left]

/-- C3: for every source spin channel, every constraint mask and every
cutoff mask, the hole bit-set and the particle bit-set produced by mask
resolution are disjoint — for the orientation written in
`get_constrained_singles`, for the orientation written in
`get_constrained_ss_doubles`, and for the unconstrained
occupied/complement split used by `get_all_singles` and
`get_ss_doubles`. -/
theorem c3_resolver_disjoint :
    ∀ (s hm pm cm : spin_det_t),
      (resolver_holes_singles s hm cm).occ ∩ (resolver_parts_singles s pm cm).occ = ∅ ∧
      (resolver_holes_ss s hm cm).occ ∩ (resolver_parts_ss s pm cm).occ = ∅ ∧
      s.occ ∩ s.compl.occ = ∅ := by
  intro s hm pm cm
  refine ⟨?_, ?_, ?_⟩ <;>
    · ext x
      simp only [resolver_holes_singles, resolver_parts_singles, resolver_holes_ss,
        resolver_parts_ss, spin_det_t.land, spin_det_t.compl, Finset.mem_inter,
        Finset.mem_sdiff, Finset.not_mem_empty, iff_false, not_and]
      tauto

/-- C7: the phase of a same-spin double excitation `(h1, h2, p1, p2)` is the
product of the two independently computed single-excitation phases
`phase(h1, p1)` and `phase(h2, p2)` against the original determinant, with
one sign flip when `h2 < p1` and another independent flip when
`p2 < h1`. -/
theorem c7_phase_double_spec :
    ∀ (s : spin_det_t) (h1 h2 p1 p2 : ℕ),
      compute_phase_double_excitation s h1 h2 p1 p2 =
        compute_phase_single_excitation s h1 p1 *
          compute_phase_single_excitation s h2 p2 *
          (if h2 < p1 then -1 else 1) * (if p2 < h1 then -1 else 1) := by
  intro s h1 h2 p1 p2
  simp only [compute_phase_double_excitation]
  by_cases hc1 : h2 < p1 <;> by_cases hc2 : p2 < h1 <;> simp [hc1, hc2]

/-- C4: for every determinant (with valid channels), the number of
same-spin double excitations generated equals `C(occ, 2) * C(virt, 2)` per
spin channel, summed over the two channels, where `occ` is the channel's
popcount and `virt = N_mos - occ`. -/
theorem c4_ss_doubles_count (d : det_t)
    (ha : valid_spin_det d.alpha) (hb : valid_spin_det d.beta) :
    (get_ss_doubles d).length =
      Nat.choose d.alpha.count 2 * Nat.choose (d.alpha.N_mos - d.alpha.count) 2 +
      Nat.choose d.beta.count 2 * Nat.choose (d.beta.N_mos - d.beta.count) 2 := by
  unfold get_ss_doubles
  rw [List.length_append, length_ss_doubles_by_mask, length_ss_doubles_by_mask,
    to_constraint_length _ ha, to_constraint_length _ hb,
    to_constraint_length _ (valid_compl _), to_constraint_length _ (valid_compl _),
    compl_count _ ha, compl_count _ hb]

/-- C4 witness: on the concrete scenario determinant (alpha `{0, 1}`, beta
empty, `n_mos = 4`) the count is `C(2,2)*C(2,2) + C(0,2)*C(4,2) = 1`. -/
theorem c4_ss_doubles_count_witness :
    valid_spin_det refDet.alpha ∧ valid_spin_det refDet.beta ∧
    (get_ss_doubles refDet).length =
      Nat.choose refDet.alpha.count 2 *
        Nat.choose (refDet.alpha.N_mos - refDet.alpha.count) 2 +
      Nat.choose refDet.beta.count 2 *
        Nat.choose (refDet.beta.N_mos - refDet.beta.count) 2 :=
  ⟨by decide, by decide, c4_ss_doubles_count refDet (by decide) (by decide)⟩

/-- C5: for every determinant (with valid channels), the number of
unconstrained all-singles generated equals
`occ_alpha * virt_alpha + occ_beta * virt_beta`. -/
theorem c5_all_singles_count (d : det_t)
    (ha : valid_spin_det d.alpha) (hb : valid_spin_det d.beta) :
    (get_all_singles d).length =
      d.alpha.count * (d.alpha.N_mos - d.alpha.count) +
      d.beta.count * (d.beta.N_mos - d.beta.count) := by
  unfold get_all_singles
  rw [List.length_append, length_singles_by_mask, length_singles_by_mask,
    to_constraint_length _ ha, to_constraint_length _ hb,
    to_constraint_length _ (valid_compl _), to_constraint_length _ (valid_compl _),
    compl_count _ ha, compl_count _ hb]

/-- C5 witness: on the concrete scenario determinant the count is
`2 * 2 + 0 * 4 = 4`. -/
theorem c5_all_singles_count_witness :
    valid_spin_det refDet.alpha ∧ valid_spin_det refDet.beta ∧
    (get_all_singles refDet).length =
      refDet.alpha.count * (refDet.alpha.N_mos - refDet.alpha.count) +
      refDet.beta.count * (refDet.beta.N_mos - refDet.beta.count) :=
  ⟨by decide, by decide, c5_all_singles_count refDet (by decide) (by decide)⟩

/-- C6 counterexample: supplying particle index `7` outside `[0, 4)` to
excitation application on a `n_mos = 4` spin determinant is not detected:
the call returns normally and silently produces corrupted bit state (a set
bit at position `7`, outside the valid orbital range), instead of surfacing
an error (the bounds assertions in the source are commented out). -/
theorem c6_counterexample :
    ¬ valid_spin_det (apply_single_excitation (⟨4, {0, 1}⟩ : spin_det_t) 0 7) ∧
    (apply_single_excitation (⟨4, {0, 1}⟩ : spin_det_t) 0 7).occ = {1, 7} := by
  decide

/-- C6 (amended): orbital indices are not validated: excitation application
performs no bounds check, and an out-of-range particle index is silently
written, yielding a spin determinant with a set bit outside `[0, n_mos)`
rather than an error. -/
theorem c6_no_validation (s : spin_det_t) (h p : ℕ) (hp : s.N_mos ≤ p) :
    (apply_single_excitation s h p).test p = true ∧
    ¬ valid_spin_det (apply_single_excitation s h p) := by
  have hmem : p ∈ (apply_single_excitation s h p).occ := by
    simp [apply_single_excitation, spin_det_t.set]
  refine ⟨by simp [spin_det_t.test, hmem], fun hv => ?_⟩
  have hlt := hv hmem
  have hN : (apply_single_excitation s h p).N_mos = s.N_mos := rfl
  rw [hN, Finset.mem_range] at hlt
  omega

/-- C6 witness: the amended statement instantiated at `n_mos = 4`,
occupation `{0, 1}`, hole `0`, particle `7`. -/
theorem c6_no_validation_witness :
    (⟨4, {0, 1}⟩ : spin_det_t).N_mos ≤ 7 ∧
    ((apply_single_excitation (⟨4, {0, 1}⟩ : spin_det_t) 0 7).test 7 = true ∧
     ¬ valid_spin_det (apply_single_excitation (⟨4, {0, 1}⟩ : spin_det_t) 0 7)) :=
  ⟨by decide, c6_no_validation ⟨4, {0, 1}⟩ 0 7 (by decide)⟩

/-- C8: applying a single excitation `(h, p)` with `h` occupied and `p`
unoccupied preserves the population count. -/
theorem c8_popcount_conserved (s : spin_det_t) (h p : ℕ)
    (hh : h ∈ s.occ) (hp : p ∉ s.occ) :
    (apply_single_excitation s h p).count = s.count := by
  have hpe : p ∉ s.occ.erase h := fun hc => hp (Finset.mem_of_mem_erase hc)
  have hcard : 1 ≤ s.occ.card := Finset.card_pos.mpr ⟨h, hh⟩
  have e1 : (apply_single_excitation s h p).count = (insert p (s.occ.erase h)).card := rfl
  rw [e1, Finset.card_insert_of_not_mem hpe, Finset.card_erase_of_mem hh]
  show s.occ.card - 1 + 1 = s.occ.card
  omega

/-- C8 witness: instantiated at alpha occupied `{0, 1}`, excitation
`(1 → 3)`. -/
theorem c8_popcount_conserved_witness :
    1 ∈ (⟨4, {0, 1}⟩ : spin_det_t).occ ∧ 3 ∉ (⟨4, {0, 1}⟩ : spin_det_t).occ ∧
    (apply_single_excitation (⟨4, {0, 1}⟩ : spin_det_t) 1 3).count =
      (⟨4, {0, 1}⟩ : spin_det_t).count :=
  ⟨by decide, by decide, c8_popcount_conserved ⟨4, {0, 1}⟩ 1 3 (by decide) (by decide)⟩

lemma sdiff_union_exc {t : Finset ℕ} {h p : ℕ} (hh : h ∈ t) (hp : p ∉ t) :
    (t \ insert p (t.erase h)) ∪ (insert p (t.erase h) \ t) = {h, p} := by
  have hne : h ≠ p := fun e => hp (e ▸ hh)
  ext a
  by_cases hah : a = h <;> by_cases hap : a = p <;> simp_all

lemma lxor_apply_single (s : spin_det_t) (h p : ℕ) (hh : h ∈ s.occ) (hp : p ∉ s.occ) :
    (s.lxor (apply_single_excitation s h p)).occ = {h, p} := by
  have e1 : (s.lxor (apply_single_excitation s h p)).occ =
      (s.occ \ insert p (s.occ.erase h)) ∪ (insert p (s.occ.erase h) \ s.occ) := rfl
  rw [e1, sdiff_union_exc hh hp]

lemma lxor_self_occ (s : spin_det_t) : (s.lxor s).occ = ∅ := by
  simp [spin_det_t.lxor]

/-- C9: for a single excitation `(h, p)` with `h` occupied and `p`
unoccupied in channel `spin` of `d`, the determinant difference
`exc_det(d, apply_single(d, spin, h, p))` has exactly the two set bits `h`
and `p`, in the excited channel only; the other channel's difference is
empty. -/
theorem c9_exc_det_two_bits (d : det_t) (spin h p : ℕ)
    (hs : spin = 0 ∨ spin = 1)
    (hh : h ∈ (d.sd spin).occ) (hp : p ∉ (d.sd spin).occ) :
    ((exc_det d (apply_single_excitation_det d spin h p)).sd spin).occ = {h, p} ∧
    ((exc_det d (apply_single_excitation_det d spin h p)).sd (1 - spin)).occ = ∅ ∧
    ((exc_det d (apply_single_excitation_det d spin h p)).sd spin).count = 2 := by
  have hne : h ≠ p := fun e => hp (e ▸ hh)
  rcases hs with rfl | rfl
  · have e1 : (exc_det d (apply_single_excitation_det d 0 h p)).sd 0 =
        d.alpha.lxor (apply_single_excitation d.alpha h p) := rfl
    have e2 : (exc_det d (apply_single_excitation_det d 0 h p)).sd (1 - 0) =
        d.beta.lxor d.beta := rfl
    refine ⟨?_, ?_, ?_⟩
    · rw [e1]; exact lxor_apply_single _ _ _ hh hp
    · rw [e2, lxor_self_occ]
    · rw [e1]
      show (d.alpha.lxor (apply_single_excitation d.alpha h p)).occ.card = 2
      rw [lxor_apply_single d.alpha h p hh hp,
        Finset.card_insert_of_not_mem (by simp [hne]), Finset.card_singleton]
  · have e1 : (exc_det d (apply_single_excitation_det d 1 h p)).sd 1 =
        d.beta.lxor (apply_single_excitation d.beta h p) := rfl
    have e2 : (exc_det d (apply_single_excitation_det d 1 h p)).sd (1 - 1) =
        d.alpha.lxor d.alpha := rfl
    refine ⟨?_, ?_, ?_⟩
    · rw [e1]; exact lxor_apply_single _ _ _ hh hp
    · rw [e2, lxor_self_occ]
    · rw [e1]
      show (d.beta.lxor (apply_single_excitation d.beta h p)).occ.card = 2
      rw [lxor_apply_single d.beta h p hh hp,
        Finset.card_insert_of_not_mem (by simp [hne]), Finset.card_singleton]

/-- C9 witness: instantiated on the concrete scenario determinant with the
alpha excitation `(1 → 3)`. -/
theorem c9_exc_det_two_bits_witness :
    ((0 : ℕ) = 0 ∨ (0 : ℕ) = 1) ∧ 1 ∈ (refDet.sd 0).occ ∧ 3 ∉ (refDet.sd 0).occ ∧
    (((exc_det refDet (apply_single_excitation_det refDet 0 1 3)).sd 0).occ = {1, 3} ∧
     ((exc_det refDet (apply_single_excitation_det refDet 0 1 3)).sd (1 - 0)).occ = ∅ ∧
     ((exc_det refDet (apply_single_excitation_det refDet 0 1 3)).sd 0).count = 2) :=
  ⟨Or.inl rfl, by decide, by decide,
    c9_exc_det_two_bits refDet 0 1 3 (Or.inl rfl) (by decide) (by decide)⟩

/-- C10: applying the single excitation `(h, p)` (with `h` occupied and `p`
unoccupied) and then the reverse excitation `(p, h)` returns the original
spin determinant. -/
theorem c10_apply_single_inverse (s : spin_det_t) (h p : ℕ)
    (hh : h ∈ s.occ) (hp : p ∉ s.occ) :
    apply_single_excitation (apply_single_excitation s h p) p h = s := by
  have hpe : p ∉ s.occ.erase h := fun hc => hp (Finset.mem_of_mem_erase hc)
  show (⟨s.N_mos, insert h ((insert p (s.occ.erase h)).erase p)⟩ : spin_det_t) = s
  rw [Finset.erase_insert hpe, Finset.insert_erase hh]

/-- C10 witness: instantiated at alpha occupied `{0, 1}`, excitation
`(1 → 2)` and back. -/
theorem c10_apply_single_inverse_witness :
    1 ∈ (⟨4, {0, 1}⟩ : spin_det_t).occ ∧ 2 ∉ (⟨4, {0, 1}⟩ : spin_det_t).occ ∧
    apply_single_excitation (apply_single_excitation (⟨4, {0, 1}⟩ : spin_det_t) 1 2) 2 1 =
      (⟨4, {0, 1}⟩ : spin_det_t) :=
  ⟨by decide, by decide, c10_apply_single_inverse ⟨4, {0, 1}⟩ 1 2 (by decide) (by decide)⟩
